import Mathlib

/-!
Shallow embedding of the margo Kim-Porter package importer core:
the completed-package cache (mgcCache), the per-package state registry
with reverse-dependency invalidation, the overlay hash, and the driver
glue (branch, ImportFrom, dependency-error annotation).

Go machine state is modelled explicitly: maps become association lists,
pointers to states become numeric identifiers, a Go panic becomes the
`none` case of an `Option` result, and the unbounded recursion of
`state.invalidate` is modelled with an explicit fuel parameter so that
termination and non-termination are both expressible.
-/

namespace Margo

/-- The fragment of go/types.Package the importer observes: its path,
name and the completeness flag reported by `Complete()`. -/
structure TypesPackage where
  path : String
  name : String
  complete : Bool
deriving DecidableEq, Repr

/-- kimporter.Package wraps a types.Package (the other fields — Fset,
Info, Files, Imports — are optional and unobserved by the claims). -/
structure Package where
  pkg : TypesPackage
deriving DecidableEq, Repr

/-! ## Completed-package cache (golang/mgccache.go) -/

/-- mgcCacheEnt: a cache entry. `Dur` models the time.Duration field. -/
structure mgcCacheEnt where
  Key : String
  Pkg : TypesPackage
  Dur : Nat
deriving DecidableEq, Repr

/-- The Go map `map[mgcCacheKey]mgcCacheEnt` modelled as an unordered
list of entries holding at most one entry per `Key`. -/
abbrev mgcMap := List mgcCacheEnt

namespace mgcCache

/-- `delete(mc.m, k)`: remove the entry stored under key `k`. -/
def mapDel (k : String) (m : mgcMap) : mgcMap :=
  m.filter (fun e => !(e.Key == k))

/-- `mc.m[k] = e`: map update (remove any entry under `k`, add `e`). -/
def mapSet (k : String) (e : mgcCacheEnt) (m : mgcMap) : mgcMap :=
  mapDel k m ++ [e]

/-- mgcCache.get: lookup, no mutation. -/
def get (k : String) (m : mgcMap) : Option mgcCacheEnt :=
  m.find? (fun e => e.Key == k)

/-- mgcCache.put: entries whose package is not complete are silently
dropped; otherwise the entry is stored under its own Key. -/
def put (e : mgcCacheEnt) (m : mgcMap) : mgcMap :=
  if !e.Pkg.complete then m else mapSet e.Key e m

/-- mgcCache.del: remove the entry under `k` (no-op if absent). -/
def del (k : String) (m : mgcMap) : mgcMap :=
  mapDel k m

/-- The body of mgcCache.prune's nested loop for one visited entry `e`:
for each pattern in order, if it matches `e.Key` the entry is appended
to the collected list and its key deleted from the map. A pattern is
modelled by its `MatchString` function `String → Bool`. -/
def pruneStep (pats : List (String → Bool)) (acc : List mgcCacheEnt × mgcMap)
    (e : mgcCacheEnt) : List mgcCacheEnt × mgcMap :=
  pats.foldl (fun acc2 pat =>
    if pat e.Key then (acc2.1 ++ [e], mapDel e.Key acc2.2) else acc2) acc

/-- mgcCache.prune: visit every entry of the map (Go's range sees each
originally-present key once; only the visited key is ever deleted),
collecting matches and deleting them from the live map. Returns the
collected list and the final map. -/
def prune (pats : List (String → Bool)) (m : mgcMap) :
    List mgcCacheEnt × mgcMap :=
  m.foldl (pruneStep pats) ([], m)

/-- The operations that can touch the shared cache map. -/
inductive CacheOp where
  | putOp (e : mgcCacheEnt)
  | delOp (k : String)
  | pruneOp (pats : List (String → Bool))
  | getOp (k : String)

/-- Effect of one operation on the map (`get` reads only). -/
def applyOp (m : mgcMap) : CacheOp → mgcMap
  | .putOp e => put e m
  | .delOp k => del k m
  | .pruneOp pats => (prune pats m).2
  | .getOp _ => m

/-- Run a sequence of cache operations from the empty cache. -/
def runOps (ops : List CacheOp) : mgcMap :=
  ops.foldl applyOp []

end mgcCache

/-! ## Per-package state (kimporter state) -/

/-- The mutable per-state fields touched by `invalidate`: the
`invAt` atomic and the mutex-guarded `imby.l` reverse-dependency list.
Pointers `*state` are modelled by numeric identifiers. -/
structure SState where
  invAt : Int
  imby : List Nat

/-- Point update of the store setting state `s`'s invAt to `t`. -/
def updInvAt (σ : Nat → SState) (s : Nat) (t : Int) : Nat → SState :=
  fun x => if x = s then { σ x with invAt := t } else σ x

/-- state.invalidate, fuel-indexed: set `invAt := t`, snapshot the
imby list, then recursively invalidate each reverse-dependency with the
same tick. The Go code recurses without any guard; `none` means the
fuel ran out before the recursion bottomed out (at every fuel, for a
non-terminating recursion). -/
def invalidateFuel : Nat → (Nat → SState) → Nat → Int → Option (Nat → SState)
  | 0, _, _, _ => none
  | fuel+1, σ, s, t =>
    (((updInvAt σ s t) s).imby).foldlM
      (fun σ2 p => invalidateFuel fuel σ2 p t) (updInvAt σ s t)

/-- state.invalidate terminates on (σ, s, t) iff some finite recursion
depth suffices. -/
def invalidateTerminates (σ : Nat → SState) (s : Nat) (t : Int) : Prop :=
  ∃ fuel σW, invalidateFuel fuel σ s t = some σW

/-- Everything invalidate's recursion can do to the store: the imby
lists are untouched and every written invAt is the tick `t`. -/
def invRel (t : Int) (σ σW : Nat → SState) : Prop :=
  ∀ x, (σW x).imby = (σ x).imby ∧
    ((σW x).invAt = t ∨ (σW x).invAt = (σ x).invAt)

/-- state.importedBy: append `p` unless an element of the list is
already the same state (Go compares the `*state` pointers). -/
def importedBy (l : List Nat) (p : Nat) : List Nat :=
  if p ∈ l then l else l ++ [p]

/-- The reverse-dependency graph with a two-cycle between states 0 and
1 (each lists the other as a reverse dependency). -/
def cycImby : Nat → SState :=
  fun s => if s = 0 then ⟨0, [1]⟩ else if s = 1 then ⟨0, [0]⟩ else ⟨0, []⟩

/-- An acyclic store: state 1 is imported by state 0 only. -/
def linImby : Nat → SState :=
  fun s => if s = 1 then ⟨0, [0]⟩ else ⟨0, []⟩

/-! ## state.result -/

/-- The fields of `state` that `result()` reads. `err` and `pkg` are
pointers, hence `Option`. -/
structure state where
  ImportPath : String
  err : Option String
  pkg : Option Package
deriving DecidableEq, Repr

/-- The message built by fmt.Errorf for a partially imported package;
the %q verb is modelled as wrapping in double quotes (exact for import
paths, which contain no characters needing escapes). -/
def reimportErr (ipath : String) : String :=
  "reimported partially imported package \"" ++ ipath ++ "\""

/-- state.result: err wins; otherwise an incomplete package is
returned together with the reimport error; otherwise (pkg, nil).
When both err and pkg are unset, `ks.pkg.Complete()` dereferences a
nil *Package pointer and the Go code panics: modelled as `none`. -/
def result (ks : state) : Option (Option Package × Option String) :=
  match ks.err with
  | some e => some (none, some e)
  | none =>
    match ks.pkg with
    | none => none
    | some p =>
      if !p.pkg.complete then
        some (some p, some (reimportErr ks.ImportPath))
      else
        some (some p, none)

/-! ## Importer driver: branch and ImportFrom -/

/-- The per-call configuration. Overlay maps are association lists of
filename to content bytes; `PackageSrc` and `SrcMap` are nil-able. -/
structure Config where
  PackageSrc : Option (List (String × List Nat))
  SrcMap : Option (List (String × List Nat))
  CheckFuncs : Bool
  CheckImports : Bool
  NoConcurrency : Bool
  Tests : Bool
  TypesInfo : Nat
  ImportsTypesInfo : Bool
deriving DecidableEq, Repr

/-- The build.Context fields the importer reads or writes. -/
structure BuildContext where
  GOOS : String
  GOARCH : String
  GOROOT : String
  GOPATH : String
deriving DecidableEq, Repr

/-- gopkg.PkgPath: resolved package identity; `Mod` is the optional
module (modelled by its root path string). -/
structure PkgPath where
  ImportPath : String
  Dir : String
  Mod : Option String
deriving DecidableEq, Repr

/-- The value fields of an Importer. `viewDir` is the part of the
mg.Ctx the model needs (mx.View.Dir()); `ks` is the current state by
identifier (nil at the root); `mp` is the current module. -/
structure ImporterCore where
  cfg : Config
  viewDir : String
  bld : BuildContext
  ks : Option Nat
  mp : String
  tags : String
  hash : String
deriving DecidableEq, Repr

/-- An Importer: its own fields plus the chain of ancestor cores built
by `branch` (the `par` pointer chain used for cycle detection). -/
structure Importer where
  core : ImporterCore
  parChain : List ImporterCore
deriving DecidableEq, Repr

/-- The `par` parent pointer: head of the ancestor chain. -/
def Importer.par (kp : Importer) : Option Importer :=
  match kp.parChain with
  | [] => none
  | c :: rest => some ⟨c, rest⟩

/-- The VFS node of GOROOT/src/syscall/js; VFS.Poke node identity is
modelled by the path string. -/
def jsDir (bld : BuildContext) : String :=
  bld.GOROOT ++ "/src/syscall/js"

/-- Importer.setupJs: force GOOS/GOARCH to js/wasm when the package
directory or the view directory is the syscall/js directory. -/
def setupJs (c : ImporterCore) (pp : PkgPath) : ImporterCore :=
  let nd := jsDir c.bld
  if pp.Dir != nd && c.viewDir != nd then c
  else { c with bld := { c.bld with GOOS := "js", GOARCH := "wasm" } }

/-- Importer.branch: copy the Importer; adopt the resolved module;
drop TypesInfo unless ImportsTypesInfo; erase the user overlay and the
per-request flags (they apply only to the root call); clear the
overlay hash; set the current state and the parent pointer; apply the
syscall/js special case. The `ks.importedBy(kp.ks)` side effect on the
state registry is modelled by `Margo.importedBy`. -/
def branch (kp : Importer) (ksId : Nat) (pp : PkgPath) : Importer :=
  let c0 := kp.core
  let c1 := match pp.Mod with
    | some m => { c0 with mp := m }
    | none => c0
  let c2 := if !c1.cfg.ImportsTypesInfo then
      { c1 with cfg := { c1.cfg with TypesInfo := 0 } }
    else c1
  let c3 := { c2 with
    cfg := { c2.cfg with
      PackageSrc := none, CheckFuncs := false,
      CheckImports := false, Tests := false },
    hash := "", ks := some ksId }
  let c4 := setupJs c3 pp
  { core := c4, parChain := kp.core :: kp.parChain }

/-- Importer.ImportFrom. A non-zero import mode panics ("non-zero
mode" message), modelled as `none`; with mode 0 the result of
ImportPackage — whose outcome depends on the filesystem and module
resolver and is therefore passed in as `importPackageRes` — is
unwrapped to its underlying types package. -/
def ImportFrom (importPackageRes : Except String Package) (mode : Nat) :
    Option (Except String TypesPackage) :=
  if mode ≠ 0 then none
  else
    match importPackageRes with
    | .error e => some (.error e)
    | .ok p => some (.ok p.pkg)

/-! ## importDeps error annotation -/

/-- token.Position: filename with 1-based line and column. -/
structure Position where
  Filename : String
  Line : Int
  Column : Int
deriving DecidableEq, Repr

/-- ast.ImportSpec: the optional Path literal (its source text, quotes
included) and the spec's resolved position. -/
structure ImportSpec where
  pathValue : Option String
  pos : Position
deriving DecidableEq, Repr

/-- ast.File restricted to its Imports list. -/
structure AstFile where
  Imports : List ImportSpec
deriving DecidableEq, Repr

/-- mg.Issue: an editor diagnostic with zero-based Row and Col. -/
structure Issue where
  Path : String
  Row : Int
  Col : Int
  Message : String
deriving DecidableEq, Repr

/-- The error returned by importDeps' doImport on failure: either the
raw dependency error or an annotated issue. -/
inductive DepErr where
  | raw (msg : String)
  | issue (i : Issue)
deriving DecidableEq, Repr

/-- strconv.Unquote modelled for the literal forms that occur as
paths of imports: a double-quoted literal without escape sequences or a
raw (backquote) literal. Any other input fails; the Go code ignores
the error and uses the zero-value string. -/
def unquoteChars (cs : List Char) : Option (List Char) :=
  match cs with
  | [] => none
  | [_] => none
  | c :: rest =>
    let body := rest.dropLast
    if c == '"' then
      if rest.getLast? == some '"'
          && body.all (fun x => x != '"' && x != '\\') then
        some body
      else none
    else if c == '\x60' then
      if rest.getLast? == some '\x60'
          && body.all (fun x => x != '\x60') then
        some body
      else none
    else none

/-- `s, _ := strconv.Unquote(v)`: the unquoted string, or the
zero-value "" when unquoting fails. -/
def goUnquote (v : String) : String :=
  match unquoteChars v.data with
  | some cs => String.mk cs
  | none => ""

/-- Does an import spec name the failing import path? (spec.Path must
be non-nil and its unquoted value equal to ipath.) -/
def specMatch (ipath : String) (spec : ImportSpec) : Bool :=
  match spec.pathValue with
  | none => false
  | some v => goUnquote v == ipath

/-- The scan in doImport's error path: first file, first import spec
whose unquoted path equals the failing import path. -/
def findImportSpec (ipath : String) : List AstFile → Option ImportSpec
  | [] => none
  | af :: fs =>
    match af.Imports.find? (specMatch ipath) with
    | some spec => some spec
    | none => findImportSpec ipath fs

/-- doImport's error path in importDeps: when a spec matching the
failing import path exists, return an mg.Issue at that spec's position
with zero-based row and column; otherwise return the raw error. -/
def annotateDepErr (ipath : String) (astFiles : List AstFile)
    (errMsg : String) : DepErr :=
  match findImportSpec ipath astFiles with
  | some spec =>
    .issue ⟨spec.pos.Filename, spec.pos.Line - 1, spec.pos.Column - 1, errMsg⟩
  | none => .raw errMsg

/-! ## Overlay hash (srcMapHash) -/

/-- The byte sequence of a string (UTF-8 modelled as the code-point
sequence; UTF-8 ordering and concatenation agree with it). -/
def strBytes (s : String) : List Nat :=
  s.data.map Char.toNat

/-- Go's byte-wise `<` on strings (UTF-8 byte order coincides with
code-point order). -/
def strLt : List Char → List Char → Bool
  | [], [] => false
  | [], _ :: _ => true
  | _ :: _, [] => false
  | a :: as, b :: bs =>
    if a.toNat < b.toNat then true
    else if b.toNat < a.toNat then false
    else strLt as bs

/-- Insertion into a lexicographically sorted list of strings. -/
def insertStr (s : String) : List String → List String
  | [] => [s]
  | t :: l => if strLt s.data t.data then s :: t :: l else t :: insertStr s l

/-- sort.StringSlice.Sort: lexicographic string sort. -/
def sortStrings : List String → List String
  | [] => []
  | s :: l => insertStr s (sortStrings l)

/-- `m[fn]` on the overlay map: the Go zero value (nil, zero bytes)
when the filename is absent. -/
def lookupBytes (m : List (String × List Nat)) (fn : String) : List Nat :=
  match m.lookup fn with
  | some bs => bs
  | none => []

/-- The byte stream srcMapHash feeds to blake2b, following the code:
`fns := make(sort.StringSlice, len(m))` creates len(m) empty strings
up front, the filenames are then appended, the slice is sorted, and
fn-bytes followed by m[fn] is written for each element. `none` models
the empty-map early return of "". -/
def srcMapHashInput (m : List (String × List Nat)) : Option (List Nat) :=
  if m.length = 0 then none
  else
    let fns := List.replicate m.length "" ++ m.map Prod.fst
    some ((sortStrings fns).foldl
      (fun acc fn => acc ++ strBytes fn ++ lookupBytes m fn) [])

/-- Modelled from the spec: sort the filenames lexicographically and
feed filename-bytes followed by content-bytes, for each filename in
order; empty input is signalled separately. -/
def specHashInput (m : List (String × List Nat)) : Option (List Nat) :=
  if m.length = 0 then none
  else
    some ((sortStrings (m.map Prod.fst)).foldl
      (fun acc fn => acc ++ strBytes fn ++ lookupBytes m fn) [])

/-- A lower-case hex digit. -/
def hexChar (n : Nat) : Char :=
  if n < 10 then Char.ofNat (48 + n) else Char.ofNat (87 + n)

/-- hex.EncodeToString over a byte list (lower-case). -/
def hexEncode (bs : List Nat) : String :=
  String.mk (bs.flatMap (fun b => [hexChar (b / 16 % 16), hexChar (b % 16)]))

/-- srcMapHash, parameterized by the 256-bit digest function `H`
(blake2b is an external library): empty overlay gives "", otherwise
the lower-case hex of the digest of the fed byte stream. -/
def srcMapHash (H : List Nat → List Nat) (m : List (String × List Nat)) :
    String :=
  match srcMapHashInput m with
  | none => ""
  | some bs => hexEncode (H bs)

/-! ## Concrete data used by counterexamples and witnesses -/

/-- A cache entry with a complete package under key "k". -/
def pruneEnt0 : mgcCacheEnt := ⟨"k", ⟨"p", "p", true⟩, 0⟩

/-- Two matchers that both match the key "k" (the MatchString
functions of, e.g., the regular expressions `k` and `^.*$`). -/
def pats2 : List (String → Bool) := [fun _ => true, fun _ => true]

/-- A matcher list matching exactly the key "a" (regexp `^a$`). -/
def pats0 : List (String → Bool) := [fun s => s == "a"]

/-- A two-entry cache with distinct keys "a" and "b". -/
def m0 : mgcMap := [⟨"a", ⟨"p", "p", true⟩, 0⟩, ⟨"b", ⟨"q", "q", true⟩, 1⟩]

/-- A complete-package cache entry. -/
def entC : mgcCacheEnt := ⟨"c", ⟨"p", "p", true⟩, 1⟩

/-- An incomplete-package cache entry. -/
def entI : mgcCacheEnt := ⟨"i", ⟨"q", "q", false⟩, 1⟩

/-- A parsed file with one import spec: `import "fmt"` at line 3,
column 2 of a.go. -/
def wAf : AstFile := ⟨[⟨some ("\"fmt\""), ⟨"a.go", 3, 2⟩⟩]⟩

/-- A root importer with every per-request setting enabled. -/
def kp0 : Importer :=
  ⟨⟨⟨some [], some [], true, true, false, true, 5, false⟩,
    "/v", ⟨"linux", "amd64", "/go", "/gp"⟩, none, "mod", "t1 t2", "h"⟩, []⟩

/-- A resolved package outside the syscall/js directory. -/
def pp0 : PkgPath := ⟨"x", "/p", some ("m2")⟩

/-! ## Theorems -/

/-- C3 (code slip): `make(sort.StringSlice, len(m))` allocates len(m)
empty strings that are then sorted and hashed along with the real
filenames. For an overlay whose only file is named "" with content
0x01, the code feeds the byte stream 0x01 0x01 to the digest, while
the specified stream (each filename followed by its content, once, in
sorted order) is the single byte 0x01. -/
theorem srcMapHash_make_length_bug :
    srcMapHashInput [("", [1])] = some [1, 1] ∧
    specHashInput [("", [1])] = some [1] ∧
    srcMapHashInput [("", [1])] ≠ specHashInput [("", [1])] :=
  ⟨by decide, by decide, by decide⟩

/-- C5: state.result returns (nil, err) when err is set; returns the
incomplete package together with the reimport error when err is unset
and the stored package is incomplete; and returns (pkg, nil) when the
stored package is complete. -/
theorem result_policy (ks : state) :
    (∀ e, ks.err = some e → result ks = some (none, some e)) ∧
    (∀ p, ks.err = none → ks.pkg = some p → p.pkg.complete = false →
      result ks = some (some p, some (reimportErr ks.ImportPath))) ∧
    (∀ p, ks.err = none → ks.pkg = some p → p.pkg.complete = true →
      result ks = some (some p, none)) := by
  refine ⟨fun e he => ?_, fun p he hp hc => ?_, fun p he hp hc => ?_⟩
  · unfold result
    rw [he]
  · unfold result
    rw [he, hp]
    simp [hc]
  · unfold result
    rw [he, hp]
    simp [hc]

/-- Witness for C5: the three cases of result at concrete states. -/
theorem result_policy_witness :
    result ⟨"ip", some ("boom"), none⟩ = some (none, some ("boom")) ∧
    result ⟨"ip", none, some ⟨⟨"p", "p", false⟩⟩⟩ =
      some (some ⟨⟨"p", "p", false⟩⟩, some (reimportErr ("ip"))) ∧
    result ⟨"ip", none, some ⟨⟨"p", "p", true⟩⟩⟩ =
      some (some ⟨⟨"p", "p", true⟩⟩, none) :=
  ⟨(result_policy _).1 _ rfl,
   (result_policy _).2.1 _ rfl rfl rfl,
   (result_policy _).2.2 _ rfl rfl rfl⟩

/-- C10: on a never-computed state (err and pkg both unset, which the
data model allows), result() dereferences a nil *Package in
`ks.pkg.Complete()` and panics (modelled by `none`) instead of
returning a value or an error. -/
theorem result_nil_nil_panics (ks : state)
    (he : ks.err = none) (hp : ks.pkg = none) : result ks = none := by
  unfold result
  rw [he, hp]

/-- Witness for C10 at the concrete never-computed state. -/
theorem result_nil_nil_panics_witness : result ⟨"ip", none, none⟩ = none :=
  result_nil_nil_panics ⟨"ip", none, none⟩ rfl rfl

/-- C9: ImportFrom panics on any non-zero import mode (modelled by
`none`: no import is performed and no package returned), and with
mode 0 returns the underlying types package of ImportPackage's result,
or that call's error. -/
theorem importFrom_mode_policy (r : Except String Package) (mode : Nat) :
    (mode ≠ 0 → ImportFrom r mode = none) ∧
    (∀ e, r = .error e → ImportFrom r 0 = some (.error e)) ∧
    (∀ p, r = .ok p → ImportFrom r 0 = some (.ok p.pkg)) := by
  refine ⟨fun h => ?_, fun e he => ?_, fun p hp => ?_⟩
  · unfold ImportFrom
    rw [if_pos h]
  · unfold ImportFrom
    rw [if_neg (by omega), he]
  · unfold ImportFrom
    rw [if_neg (by omega), hp]

/-- Witness for C9: rejection at mode 1, unwrapping at mode 0. -/
theorem importFrom_mode_policy_witness :
    ImportFrom (.ok ⟨⟨"p", "p", true⟩⟩) 1 = none ∧
    ImportFrom (.error ("e")) 0 = some (.error ("e")) ∧
    ImportFrom (.ok ⟨⟨"p", "p", true⟩⟩) 0 = some (.ok ⟨"p", "p", true⟩) :=
  ⟨(importFrom_mode_policy _ 1).1 (by omega),
   (importFrom_mode_policy _ 0).2.1 _ rfl,
   (importFrom_mode_policy _ 0).2.2 _ rfl⟩

/-- A successful scan returns a spec that is in one of the files and
matches the failing import path. -/
lemma findImportSpec_some_mem (ipath : String) (fs : List AstFile)
    (spec : ImportSpec) (h : findImportSpec ipath fs = some spec) :
    ∃ af ∈ fs, spec ∈ af.Imports ∧ specMatch ipath spec = true := by
  induction fs with
  | nil => exact absurd h (by simp [findImportSpec])
  | cons af fs ih =>
    rw [findImportSpec] at h
    cases hf : af.Imports.find? (specMatch ipath) with
    | some s =>
      rw [hf] at h
      cases h
      exact ⟨af, by simp, List.mem_of_find?_eq_some hf, List.find?_some hf⟩
    | none =>
      rw [hf] at h
      obtain ⟨af2, h1, h2⟩ := ih h
      exact ⟨af2, by simp [h1], h2⟩

/-- A failed scan means no import spec matches. -/
lemma findImportSpec_none (ipath : String) (fs : List AstFile)
    (h : findImportSpec ipath fs = none) :
    ∀ af ∈ fs, ∀ spec ∈ af.Imports, specMatch ipath spec = false := by
  induction fs with
  | nil => intro af haf; cases haf
  | cons af fs ih =>
    rw [findImportSpec] at h
    cases hf : af.Imports.find? (specMatch ipath) with
    | some s => rw [hf] at h; cases h
    | none =>
      rw [hf] at h
      intro af2 haf2 spec hspec
      rcases List.mem_cons.mp haf2 with heq | htl
      · subst heq
        have := List.find?_eq_none.mp hf spec hspec
        simpa using this
      · exact ih h af2 htl spec hspec

/-- C8: when some parsed file of the importing package has an import
specifier whose unquoted path equals the failing import path, the
returned error is an issue carrying that specifier's filename and its
zero-based row and column (line minus 1, column minus 1); when no
specifier matches, the raw dependency error is returned unchanged. -/
theorem importDeps_error_located (ipath errMsg : String)
    (astFiles : List AstFile) :
    ((∃ af ∈ astFiles, ∃ spec ∈ af.Imports, specMatch ipath spec = true) →
      ∃ af ∈ astFiles, ∃ spec ∈ af.Imports, specMatch ipath spec = true ∧
        annotateDepErr ipath astFiles errMsg =
          .issue ⟨spec.pos.Filename, spec.pos.Line - 1,
                  spec.pos.Column - 1, errMsg⟩) ∧
    ((∀ af ∈ astFiles, ∀ spec ∈ af.Imports, specMatch ipath spec = false) →
      annotateDepErr ipath astFiles errMsg = .raw errMsg) := by
  constructor
  · intro h
    cases hf : findImportSpec ipath astFiles with
    | none =>
      exfalso
      obtain ⟨af, haf, spec, hspec, hm⟩ := h
      have := findImportSpec_none ipath astFiles hf af haf spec hspec
      rw [this] at hm
      cases hm
    | some spec =>
      obtain ⟨af, haf, hmem, hm⟩ := findImportSpec_some_mem ipath astFiles spec hf
      refine ⟨af, haf, spec, hmem, hm, ?_⟩
      unfold annotateDepErr
      rw [hf]
  · intro h
    cases hf : findImportSpec ipath astFiles with
    | none =>
      unfold annotateDepErr
      rw [hf]
    | some spec =>
      obtain ⟨af, haf, hmem, hm⟩ := findImportSpec_some_mem ipath astFiles spec hf
      rw [h af haf spec hmem] at hm
      cases hm

/-- Witness for C8: a failing import of "fmt" is annotated with the
position of its import spec (zero-based), and a failing import of a
path named by no spec surfaces the raw error. -/
theorem importDeps_error_located_witness :
    (∃ af ∈ [wAf], ∃ spec ∈ af.Imports, specMatch ("fmt") spec = true ∧
      annotateDepErr ("fmt") [wAf] ("err") =
        .issue ⟨spec.pos.Filename, spec.pos.Line - 1,
                spec.pos.Column - 1, "err"⟩) ∧
    annotateDepErr ("zzz") [wAf] ("err") = DepErr.raw ("err") :=
  ⟨(importDeps_error_located ("fmt") ("err") [wAf]).1 (by decide),
   (importDeps_error_located ("zzz") ("err") [wAf]).2 (by decide)⟩

/-- C7: branch produces a child importer whose PackageSrc overlay is
nil, whose CheckFuncs, CheckImports and Tests flags are false, whose
overlay hash is empty and whose parent pointer is the branching
one, while the context (view directory), the tags and — outside
the syscall/js special case — the build context are unchanged. -/
theorem branch_isolates_root_config (kp : Importer) (ksId : Nat) (pp : PkgPath) :
    (branch kp ksId pp).core.cfg.PackageSrc = none ∧
    (branch kp ksId pp).core.cfg.CheckFuncs = false ∧
    (branch kp ksId pp).core.cfg.CheckImports = false ∧
    (branch kp ksId pp).core.cfg.Tests = false ∧
    (branch kp ksId pp).core.hash = "" ∧
    (branch kp ksId pp).par = some kp ∧
    (branch kp ksId pp).core.viewDir = kp.core.viewDir ∧
    (branch kp ksId pp).core.tags = kp.core.tags ∧
    (pp.Dir ≠ jsDir kp.core.bld → kp.core.viewDir ≠ jsDir kp.core.bld →
      (branch kp ksId pp).core.bld = kp.core.bld) := by
  have hbld : pp.Dir ≠ jsDir kp.core.bld → kp.core.viewDir ≠ jsDir kp.core.bld →
      (branch kp ksId pp).core.bld = kp.core.bld := by
    intro hd hv
    simp only [jsDir] at hd hv
    unfold branch setupJs
    cases hm : pp.Mod <;> by_cases hti : kp.core.cfg.ImportsTypesInfo <;>
      simp [hti, jsDir, hd, hv]
  refine ⟨?_, ?_, ?_, ?_, ?_, ?_, ?_, ?_, hbld⟩ <;>
    · cases hm : pp.Mod <;> by_cases hti : kp.core.cfg.ImportsTypesInfo <;>
        simp [branch, setupJs, Importer.par, apply_ite, hti, hm]

/-- Witness for C7 at a concrete importer and package path outside
the syscall/js directory. -/
theorem branch_isolates_root_config_witness :
    (branch kp0 7 pp0).core.cfg.PackageSrc = none ∧
    (branch kp0 7 pp0).core.cfg.CheckFuncs = false ∧
    (branch kp0 7 pp0).core.cfg.CheckImports = false ∧
    (branch kp0 7 pp0).core.cfg.Tests = false ∧
    (branch kp0 7 pp0).core.hash = "" ∧
    (branch kp0 7 pp0).par = some kp0 ∧
    (branch kp0 7 pp0).core.viewDir = kp0.core.viewDir ∧
    (branch kp0 7 pp0).core.tags = kp0.core.tags ∧
    (branch kp0 7 pp0).core.bld = kp0.core.bld := by
  have h := branch_isolates_root_config kp0 7 pp0
  exact ⟨h.1, h.2.1, h.2.2.1, h.2.2.2.1, h.2.2.2.2.1, h.2.2.2.2.2.1,
    h.2.2.2.2.2.2.1, h.2.2.2.2.2.2.2.1,
    h.2.2.2.2.2.2.2.2 (by decide) (by decide)⟩

namespace mgcCache

/-- Deleting a key twice is the same as deleting it once. -/
lemma mapDel_idem (k : String) (m : mgcMap) :
    mapDel k (mapDel k m) = mapDel k m := by
  unfold mapDel
  rw [List.filter_filter]
  simp

/-- One visit of prune's inner loop: the entry is appended once per
matching pattern, and its key is deleted iff some pattern matches. -/
lemma pruneStep_eq (pats : List (String → Bool)) (ents : List mgcCacheEnt)
    (cur : mgcMap) (e : mgcCacheEnt) :
    pruneStep pats (ents, cur) e =
      (ents ++ (pats.filter (fun pat => pat e.Key)).map (fun _ => e),
       if pats.any (fun pat => pat e.Key) then mapDel e.Key cur else cur) := by
  induction pats generalizing ents cur with
  | nil => simp [pruneStep]
  | cons p ps ih =>
    unfold pruneStep at ih ⊢
    rw [List.foldl_cons]
    cases h : p e.Key
    · simp only [h, Bool.false_eq_true, if_false]
      rw [ih]
      simp [h]
    · simp only [h, if_true]
      rw [ih]
      simp [h, mapDel_idem, List.filter_cons, List.any_cons]

/-- The outer fold of prune, with arbitrary accumulators. -/
lemma prune_foldl_eq (pats : List (String → Bool)) (m : mgcMap) :
    ∀ (ents : List mgcCacheEnt) (cur : mgcMap),
    m.foldl (pruneStep pats) (ents, cur) =
      (ents ++ m.flatMap
        (fun e => (pats.filter (fun pat => pat e.Key)).map (fun _ => e)),
       m.foldl (fun c e =>
         if pats.any (fun pat => pat e.Key) then mapDel e.Key c else c) cur) := by
  induction m with
  | nil => intro ents cur; simp
  | cons e m ih =>
    intro ents cur
    rw [List.foldl_cons, pruneStep_eq, ih, List.foldl_cons]
    simp

/-- The deletions prune performs, as a filter of the starting map. -/
lemma delsFold_eq_filter (pats : List (String → Bool)) (m : mgcMap) :
    ∀ cur : mgcMap,
    m.foldl (fun c e =>
        if pats.any (fun pat => pat e.Key) then mapDel e.Key c else c) cur =
      cur.filter (fun x =>
        !(m.any (fun e => pats.any (fun pat => pat e.Key) && (x.Key == e.Key)))) := by
  induction m with
  | nil => intro cur; simp
  | cons e m ih =>
    intro cur
    rw [List.foldl_cons, ih]
    cases h : pats.any (fun pat => pat e.Key)
    · simp only [Bool.false_eq_true, if_false]
      apply List.filter_congr
      intro x hx
      simp [List.any_cons, h]
    · simp only [if_true]
      unfold mapDel
      rw [List.filter_filter]
      apply List.filter_congr
      intro x hx
      cases h1 : (x.Key == e.Key) <;>
        cases h2 : m.any (fun u => pats.any (fun pat => pat u.Key) && (x.Key == u.Key)) <;>
          simp [List.any_cons, h, h1, h2]

/-- The list prune returns: one occurrence of each entry per matching
pattern. -/
lemma prune_fst_eq (pats : List (String → Bool)) (m : mgcMap) :
    (prune pats m).1 =
      m.flatMap (fun e => (pats.filter (fun pat => pat e.Key)).map (fun _ => e)) := by
  unfold prune
  rw [prune_foldl_eq]
  simp

/-- The map prune leaves behind, before using key uniqueness. -/
lemma prune_snd_eq (pats : List (String → Bool)) (m : mgcMap) :
    (prune pats m).2 =
      m.filter (fun x =>
        !(m.any (fun e => pats.any (fun pat => pat e.Key) && (x.Key == e.Key)))) := by
  unfold prune
  rw [prune_foldl_eq, delsFold_eq_filter]

/-- prune never adds entries to the map. -/
lemma prune_snd_subset (pats : List (String → Bool)) (m : mgcMap) :
    ∀ x ∈ (prune pats m).2, x ∈ m := by
  rw [prune_snd_eq]
  intro x hx
  exact List.mem_of_mem_filter hx

/-- Each single cache operation preserves "all entries complete". -/
lemma applyOp_preserves_complete (m : mgcMap) (op : CacheOp)
    (h : ∀ e ∈ m, e.Pkg.complete = true) :
    ∀ e ∈ applyOp m op, e.Pkg.complete = true := by
  cases op with
  | putOp e =>
    intro x hx
    simp only [applyOp, put] at hx
    cases hc : e.Pkg.complete
    · rw [if_pos (by simp [hc])] at hx
      exact h x hx
    · rw [if_neg (by simp [hc])] at hx
      unfold mapSet at hx
      rcases List.mem_append.mp hx with hm | hm
      · exact h x (List.mem_of_mem_filter hm)
      · rw [List.mem_singleton.mp hm]
        exact hc
  | delOp k =>
    intro x hx
    exact h x (List.mem_of_mem_filter hx)
  | pruneOp pats =>
    intro x hx
    exact h x (prune_snd_subset pats m x hx)
  | getOp k => exact h

/-- Folding any operation sequence preserves "all entries complete". -/
lemma foldl_applyOp_complete (ops : List CacheOp) :
    ∀ m, (∀ e ∈ m, e.Pkg.complete = true) →
    ∀ e ∈ ops.foldl applyOp m, e.Pkg.complete = true := by
  induction ops with
  | nil => intro m h; exact h
  | cons op ops ih =>
    intro m h
    rw [List.foldl_cons]
    exact ih _ (applyOp_preserves_complete m op h)

end mgcCache

/-- C2 counterexample: on a cache holding the single entry with key
"k" and two patterns that both match it (e.g. the regexps `k` and
`^.*$`), prune returns the evicted entry twice, not exactly once. -/
theorem prune_duplicate_return :
    (mgcCache.prune pats2 [pruneEnt0]).1 = [pruneEnt0, pruneEnt0] ∧
    (mgcCache.prune pats2 [pruneEnt0]).2 = [] ∧
    (mgcCache.prune pats2 [pruneEnt0]).1.count pruneEnt0 ≠ 1 :=
  ⟨by decide, by decide, by decide⟩

/-- C2 (amended): for a cache with pairwise distinct keys, prune
evicts exactly the entries whose key matches at least one pattern
(entries matching none stay in the map unchanged), and the returned
list holds each evicted entry once per matching pattern — an entry
matching k patterns is returned k times. -/
theorem prune_spec_amended (pats : List (String → Bool)) (m : mgcMap)
    (hnd : (m.map mgcCacheEnt.Key).Nodup) :
    (mgcCache.prune pats m).2 =
      m.filter (fun e => !(pats.any (fun pat => pat e.Key))) ∧
    (mgcCache.prune pats m).1 =
      m.flatMap (fun e => (pats.filter (fun pat => pat e.Key)).map (fun _ => e)) := by
  refine ⟨?_, mgcCache.prune_fst_eq pats m⟩
  rw [mgcCache.prune_snd_eq]
  apply List.filter_congr
  intro x hx
  cases h : pats.any (fun pat => pat x.Key)
  · simp only [Bool.not_eq_eq_eq_not, Bool.not_false, Bool.not_true]
    rw [List.any_eq_false]
    intro e he
    simp only [Bool.and_eq_true, beq_iff_eq]
    rintro ⟨hpe, hkey⟩
    have hex : x = e := List.inj_on_of_nodup_map hnd hx he hkey
    rw [← hex] at hpe
    rw [hpe] at h
    cases h
  · simp only [Bool.not_eq_eq_eq_not, Bool.not_true, Bool.not_false]
    rw [List.any_eq_true]
    exact ⟨x, hx, by simp [h]⟩

/-- Witness for C2 (amended) on a concrete two-entry cache where one
entry matches the single pattern. -/
theorem prune_spec_amended_witness :
    (mgcCache.prune pats0 m0).2 =
      m0.filter (fun e => !(pats0.any (fun pat => pat e.Key))) ∧
    (mgcCache.prune pats0 m0).1 =
      m0.flatMap (fun e => (pats0.filter (fun pat => pat e.Key)).map (fun _ => e)) :=
  prune_spec_amended pats0 m0 (by decide)

/-- C4: put silently drops entries whose package is not complete, and
consequently, after any sequence of get/put/del/prune operations from
the empty cache, every entry in the map holds a complete package. -/
theorem cache_only_complete :
    (∀ (e : mgcCacheEnt) (m : mgcMap), e.Pkg.complete = false →
      mgcCache.put e m = m) ∧
    (∀ (ops : List mgcCache.CacheOp), ∀ e ∈ mgcCache.runOps ops,
      e.Pkg.complete = true) := by
  constructor
  · intro e m hc
    unfold mgcCache.put
    rw [if_pos (by simp [hc])]
  · intro ops e he
    exact mgcCache.foldl_applyOp_complete ops [] (by intro x hx; cases hx) e he

/-- Witness for C4: the incomplete entry is dropped, and the complete
entry stored by a concrete operation sequence is indeed complete. -/
theorem cache_only_complete_witness :
    mgcCache.put entI [] = [] ∧ entC.Pkg.complete = true :=
  ⟨cache_only_complete.1 entI [] rfl,
   cache_only_complete.2 [mgcCache.CacheOp.putOp entC] entC (by decide)⟩

lemma invRel_refl (t : Int) (σ : Nat → SState) : invRel t σ σ :=
  fun _ => ⟨rfl, Or.inr rfl⟩

lemma invRel_trans {t : Int} {σ1 σ2 σ3 : Nat → SState}
    (h12 : invRel t σ1 σ2) (h23 : invRel t σ2 σ3) : invRel t σ1 σ3 := by
  intro x
  obtain ⟨hi12, hv12⟩ := h12 x
  obtain ⟨hi23, hv23⟩ := h23 x
  refine ⟨hi23.trans hi12, ?_⟩
  rcases hv23 with h | h
  · exact Or.inl h
  · rcases hv12 with h2 | h2
    · exact Or.inl (h.trans h2)
    · exact Or.inr (h.trans h2)

lemma invRel_updInvAt (t : Int) (σ : Nat → SState) (s : Nat) :
    invRel t σ (updInvAt σ s t) := by
  intro x
  unfold updInvAt
  by_cases h : x = s <;> simp [h]

/-- Folding invalidation steps over a list stays within `invRel`. -/
lemma foldlM_invRel {t : Int} {step : (Nat → SState) → Nat → Option (Nat → SState)}
    (hstep : ∀ σa p σb, step σa p = some σb → invRel t σa σb) :
    ∀ (l : List Nat) (σ σW : Nat → SState),
      l.foldlM step σ = some σW → invRel t σ σW := by
  intro l
  induction l with
  | nil =>
    intro σ σW h
    rw [List.foldlM_nil] at h
    cases h
    exact invRel_refl t σ
  | cons p l ih =>
    intro σ σW h
    rw [List.foldlM_cons] at h
    cases hs : step σ p with
    | none => rw [hs] at h; cases h
    | some σm =>
      rw [hs] at h
      exact invRel_trans (hstep σ p σm hs) (ih σm σW h)

/-- A successful invalidation changes only invAt fields, writes only
the tick `t`, and does set the root's invAt to `t`. -/
lemma invalidateFuel_invRel :
    ∀ (fuel : Nat) (σ : Nat → SState) (s : Nat) (t : Int) (σW : Nat → SState),
    invalidateFuel fuel σ s t = some σW →
    invRel t σ σW ∧ (σW s).invAt = t := by
  intro fuel
  induction fuel with
  | zero =>
    intro σ s t σW h
    rw [invalidateFuel] at h
    cases h
  | succ fuel ih =>
    intro σ s t σW h
    rw [invalidateFuel] at h
    have hrel2 := foldlM_invRel (fun σa p σb hh => (ih σa p t σb hh).1) _ _ _ h
    refine ⟨invRel_trans (invRel_updInvAt t σ s) hrel2, ?_⟩
    have h1 : ((updInvAt σ s t) s).invAt = t := by
      unfold updInvAt
      simp
    rcases (hrel2 s).2 with hh | hh
    · exact hh
    · exact hh.trans h1

/-- A successful fold of invalidation steps sets the invAt of every
state in the list to the tick. -/
lemma foldlM_sets (t : Int) (fuel : Nat) :
    ∀ (l : List Nat) (σ σW : Nat → SState),
    l.foldlM (fun σ2 p => invalidateFuel fuel σ2 p t) σ = some σW →
    ∀ p ∈ l, (σW p).invAt = t := by
  intro l
  induction l with
  | nil => intro σ σW _ p hp; cases hp
  | cons q l ih =>
    intro σ σW h p hp
    rw [List.foldlM_cons] at h
    cases hs : invalidateFuel fuel σ q t with
    | none => rw [hs] at h; cases h
    | some σm =>
      rw [hs] at h
      rcases List.mem_cons.mp hp with hq | hl
      · subst hq
        have h1 : (σm p).invAt = t := (invalidateFuel_invRel fuel σ p t σm hs).2
        have hrel := foldlM_invRel
          (fun σa u σb hh => (invalidateFuel_invRel fuel σa u t σb hh).1) l σm σW h
        rcases (hrel p).2 with h2 | h2
        · exact h2
        · exact h2.trans h1
      · exact ih σm σW h p hl

/-- With a rank function witnessing acyclicity of the reverse-dep
graph, enough fuel always suffices: the recursion terminates. -/
lemma invalidateFuel_total :
    ∀ (fuel : Nat) (σ : Nat → SState) (s : Nat) (t : Int) (r : Nat → Nat),
    (∀ x q, q ∈ (σ x).imby → r q < r x) → r s < fuel →
    ∃ σW, invalidateFuel fuel σ s t = some σW := by
  intro fuel
  induction fuel with
  | zero =>
    intro σ s t r _ hfuel
    exact absurd hfuel (by omega)
  | succ fuel ih =>
    intro σ s t r hacyc hfuel
    rw [invalidateFuel]
    have himby1 : ∀ x, ((updInvAt σ s t) x).imby = (σ x).imby :=
      fun x => ((invRel_updInvAt t σ s) x).1
    have hlist : ∀ (l : List Nat), (∀ q ∈ l, r q < fuel) →
        ∀ σc : Nat → SState, (∀ x, (σc x).imby = (σ x).imby) →
        ∃ σW, l.foldlM (fun σ2 p => invalidateFuel fuel σ2 p t) σc = some σW := by
      intro l
      induction l with
      | nil =>
        intro _ σc _
        exact ⟨σc, by rw [List.foldlM_nil]; rfl⟩
      | cons q l ihl =>
        intro hql σc hc
        have hacycc : ∀ x u, u ∈ (σc x).imby → r u < r x :=
          fun x u hu => hacyc x u ((hc x) ▸ hu)
        obtain ⟨σm, hm⟩ := ih σc q t r hacycc (hql q (by simp))
        have hcm : ∀ x, (σm x).imby = (σ x).imby := by
          intro x
          have hEq := ((invalidateFuel_invRel fuel σc q t σm hm).1 x).1
          rw [hEq, hc x]
        obtain ⟨σW, hW⟩ := ihl (fun u hu => hql u (by simp [hu])) σm hcm
        refine ⟨σW, ?_⟩
        rw [List.foldlM_cons, hm]
        simpa using hW
    apply hlist
    · intro q hq
      rw [himby1 s] at hq
      have := hacyc s q hq
      omega
    · exact himby1

/-- On the two-cycle graph, invalidate's recursion exhausts any fuel:
it never returns, whatever the store's invAt values are. -/
lemma invalidateFuel_cyc_none :
    ∀ (fuel : Nat) (σ : Nat → SState) (t : Int),
    (σ 0).imby = [1] → (σ 1).imby = [0] →
    invalidateFuel fuel σ 0 t = none ∧ invalidateFuel fuel σ 1 t = none := by
  intro fuel
  induction fuel with
  | zero => intro σ t _ _; exact ⟨rfl, rfl⟩
  | succ fuel ih =>
    intro σ t h0 h1
    constructor
    · rw [invalidateFuel]
      have hi : ((updInvAt σ 0 t) 0).imby = [1] := by
        rw [((invRel_updInvAt t σ 0) 0).1, h0]
      rw [hi, List.foldlM_cons]
      have hn := (ih (updInvAt σ 0 t) t
        (by rw [((invRel_updInvAt t σ 0) 0).1, h0])
        (by rw [((invRel_updInvAt t σ 0) 1).1, h1])).2
      rw [hn]
      rfl
    · rw [invalidateFuel]
      have hi : ((updInvAt σ 1 t) 1).imby = [0] := by
        rw [((invRel_updInvAt t σ 1) 1).1, h1]
      rw [hi, List.foldlM_cons]
      have hn := (ih (updInvAt σ 1 t) t
        (by rw [((invRel_updInvAt t σ 1) 0).1, h0])
        (by rw [((invRel_updInvAt t σ 1) 1).1, h1])).1
      rw [hn]
      rfl

/-- C1 counterexample: on the finite reverse-dependency graph with the
two-cycle 0 ↔ 1 (state 0 imported by 1 and vice versa),
state.invalidate(1) does not terminate: the unguarded recursion
exhausts every finite recursion depth. -/
theorem invalidate_cycle_diverges : ¬ invalidateTerminates cycImby 0 1 := by
  rintro ⟨fuel, σW, h⟩
  have hn := (invalidateFuel_cyc_none fuel cycImby 1 (by rfl) (by rfl)).1
  rw [hn] at h
  cases h

/-- C1 (amended): on an acyclic reverse-dependency graph (witnessed by
a rank function decreasing along imported-by edges), invalidate
terminates given any sufficient recursion depth; it sets the state's
invalidatedAt to the tick, recursively sets each reverse-dependency's
invalidatedAt to the same tick, leaves every importedBy list
untouched, and writes nothing but the tick. With a cyclic graph the
recursion is not self-terminating (see the counterexample). -/
theorem invalidate_acyclic_terminates (σ : Nat → SState) (s : Nat) (t : Int)
    (r : Nat → Nat) (fuel : Nat)
    (hacyc : ∀ x q, q ∈ (σ x).imby → r q < r x) (hfuel : r s < fuel) :
    ∃ σW, invalidateFuel fuel σ s t = some σW ∧ (σW s).invAt = t ∧
      (∀ p ∈ (σ s).imby, (σW p).invAt = t) ∧
      (∀ x, (σW x).imby = (σ x).imby) ∧
      (∀ x, (σW x).invAt = t ∨ (σW x).invAt = (σ x).invAt) := by
  obtain ⟨σW, hW⟩ := invalidateFuel_total fuel σ s t r hacyc hfuel
  have hrel := invalidateFuel_invRel fuel σ s t σW hW
  refine ⟨σW, hW, hrel.2, ?_, fun x => (hrel.1 x).1, fun x => (hrel.1 x).2⟩
  cases fuel with
  | zero => exact absurd hfuel (by omega)
  | succ f =>
    rw [invalidateFuel] at hW
    intro p hp
    refine foldlM_sets t f _ _ σW hW p ?_
    rw [((invRel_updInvAt t σ s) s).1]
    exact hp

/-- Witness for C1 (amended) on the concrete acyclic store where
state 1 is imported by state 0 only, with rank the identity and
fuel 2. -/
theorem invalidate_acyclic_terminates_witness :
    ∃ σW, invalidateFuel 2 linImby 1 7 = some σW ∧ (σW 1).invAt = 7 ∧
      (∀ p ∈ (linImby 1).imby, (σW p).invAt = 7) ∧
      (∀ x, (σW x).imby = (linImby x).imby) ∧
      (∀ x, (σW x).invAt = 7 ∨ (σW x).invAt = (linImby x).invAt) :=
  invalidate_acyclic_terminates linImby 1 7 (fun x => x) 2
    (by
      intro x q hq
      show q < x
      by_cases h : x = 1
      · subst h
        simp [linImby] at hq
        omega
      · simp [linImby, h] at hq)
    (by decide)

/-- C6: importedBy keeps the reverse-dependency list a duplicate-free
set whose membership only grows — it appends a state only when no
element of the list is that state, keeps every existing element, and
leaves the list unchanged when the state is already present — and
invalidate never removes an entry from any importedBy list. -/
theorem importedBy_set_additive :
    (∀ (l : List Nat) (p : Nat), l.Nodup → (importedBy l p).Nodup) ∧
    (∀ (l : List Nat) (p q : Nat), q ∈ l → q ∈ importedBy l p) ∧
    (∀ (l : List Nat) (p : Nat), p ∈ l → importedBy l p = l) ∧
    (∀ (fuel : Nat) (σ : Nat → SState) (s : Nat) (t : Int) (σW : Nat → SState),
      invalidateFuel fuel σ s t = some σW → ∀ x, (σW x).imby = (σ x).imby) := by
  refine ⟨fun l p hnd => ?_, fun l p q hq => ?_, fun l p hp => ?_,
    fun fuel σ s t σW h x => ((invalidateFuel_invRel fuel σ s t σW h).1 x).1⟩
  · unfold importedBy
    by_cases h : p ∈ l
    · rw [if_pos h]
      exact hnd
    · rw [if_neg h]
      simp [List.nodup_append, hnd, h]
  · unfold importedBy
    by_cases h : p ∈ l
    · rw [if_pos h]
      exact hq
    · rw [if_neg h]
      exact List.mem_append_left _ hq
  · unfold importedBy
    rw [if_pos hp]

/-- Witness for C6 at concrete lists and a concrete terminating
invalidation run. -/
theorem importedBy_set_additive_witness :
    (importedBy [3] 4).Nodup ∧ 3 ∈ importedBy [3] 4 ∧
    importedBy [3, 4] 4 = [3, 4] ∧
    ((updInvAt (updInvAt linImby 1 7) 0 7) 0).imby = (linImby 0).imby :=
  ⟨importedBy_set_additive.1 [3] 4 (by decide),
   importedBy_set_additive.2.1 [3] 4 3 (by decide),
   importedBy_set_additive.2.2.1 [3, 4] 4 (by decide),
   importedBy_set_additive.2.2.2 2 linImby 1 7
     (updInvAt (updInvAt linImby 1 7) 0 7) rfl 0⟩

end Margo
